import Mathlib

/-!
Shallow embedding of the Multi-Accounts-Manager core:
the credential store (`multi_accounts_manager/data_store.py`) and the
password policy engine (`multi_accounts_manager/passwords.py`).

Python specifics are modelled as follows.
* JSON values (the output of `json.load` / input of `json.dump`) are the
  inductive `JValue`; a parsed JSON object is an association list in
  insertion order (objects produced by `json.load` have unique keys).
* `datetime.utcnow()` (the `_now()` helper) is threaded through as an
  explicit `now : String` parameter.
* `secrets.choice` is modelled by an explicit draw oracle
  `rand : Nat → Nat`, reduced modulo the pool size.
* The persisted file is `FileState`: missing, unparseable, or parsed
  into a `JValue`.  `DataStore.save` overwrites it with the serialised
  store and bumps a write counter, so that "the file was not written"
  is expressible.
-/

/-- JSON values as produced by Python's `json.load`. -/
inductive JValue where
  | null : JValue
  | bool : Bool → JValue
  | num : Int → JValue
  | str : String → JValue
  | arr : List JValue → JValue
  | obj : List (String × JValue) → JValue

/-- Test for the object constructor (Python `isinstance(x, dict)`). -/
def JValue.isObj : JValue → Bool
  | .obj _ => true
  | _ => false

/-- Python `str()` applied to a JSON value.  Only the string case is ever
reached by the store code verified here; the remaining cases mirror
Python's textual conversions where they are simple (`None`, booleans,
numbers) and are otherwise unreachable placeholders for container
`repr`s. -/
def pyStr : JValue → String
  | .str s => s
  | .null => "None"
  | .bool true => "True"
  | .bool false => "False"
  | .num n => toString n
  | .arr _ => "<list repr>"
  | .obj _ => "<dict repr>"

/-- Lookup in a Python dict modelled as an association list with unique
keys (first match). -/
def dictLookup {α : Type} : List (String × α) → String → Option α
  | [], _ => none
  | (k₂, v) :: rest, k => if k₂ = k then some v else dictLookup rest k

/-- Python dict assignment `d[k] = v`: replace the value in place if the
key is present, otherwise append the binding (insertion order). -/
def dictInsert {α : Type} : List (String × α) → String → α → List (String × α)
  | [], k, v => [(k, v)]
  | (k₂, w) :: rest, k, v =>
      if k₂ = k then (k, v) :: rest else (k₂, w) :: dictInsert rest k v

/-- Python `dict.get(key, default)` on a JSON object. -/
def jGetD (payload : List (String × JValue)) (k : String) (d : JValue) : JValue :=
  (dictLookup payload k).getD d

/-- Loop of Python `str.split(",")` over the characters, accumulating
the current field in reverse. -/
def splitCommaGo (cur : List Char) : List Char → List String
  | [] => [⟨cur.reverse⟩]
  | c :: rest =>
      if c = ',' then ⟨cur.reverse⟩ :: splitCommaGo [] rest
      else splitCommaGo (c :: cur) rest

/-- Python `str.split(",")`: splitting the empty string yields `[""]`,
and separators are never dropped. -/
def pySplitComma (s : String) : List String :=
  splitCommaGo [] s.data

/-- Python `str.strip()` on the character list: drop leading and trailing
whitespace (ASCII whitespace; Python also strips some rarer Unicode
space characters, which never occur here). -/
def pyStripList (l : List Char) : List Char :=
  ((l.dropWhile Char.isWhitespace).reverse.dropWhile Char.isWhitespace).reverse

/-- Python `str.strip()`. -/
def pyStrip (s : String) : String :=
  ⟨pyStripList s.data⟩

/-- Accumulator loop of `_normalise_tags`: strip each tag, drop empties,
drop exact duplicates, keep first-occurrence order. -/
def normaliseTagsGo (cleaned : List String) : List String → List String
  | [] => cleaned
  | tag :: rest =>
      let stripped := pyStrip tag
      if stripped ≠ "" ∧ stripped ∉ cleaned then
        normaliseTagsGo (cleaned ++ [stripped]) rest
      else
        normaliseTagsGo cleaned rest

/-- Embedding of `_normalise_tags` from `data_store.py`. -/
def normalise_tags (tags : List String) : List String :=
  normaliseTagsGo [] tags

/-- Embedding of the `Account` dataclass.  The dataclass constructor
normalises `tags` in `__post_init__`; use `Account.make` for that. -/
structure Account where
  username : String
  password : String
  notes : String
  tags : List String
  last_updated : String
deriving DecidableEq, Repr

/-- Account construction through the dataclass constructor, which runs
`__post_init__` and therefore normalises the tags. -/
def Account.make (username password notes : String) (tags : List String)
    (last_updated : String) : Account :=
  ⟨username, password, notes, normalise_tags tags, last_updated⟩

/-- Embedding of `Account.to_dict`. -/
def Account.to_dict (a : Account) : List (String × JValue) :=
  [("username", .str a.username),
   ("password", .str a.password),
   ("notes", .str a.notes),
   ("tags", .arr (a.tags.map .str)),
   ("last_updated", .str a.last_updated)]

/-- Embedding of `Account.from_dict`.  `now` stands for the `_now()`
default used when the payload has no `last_updated` entry.  The `tags`
entry may be a string (split on commas), a JSON array (its elements,
converted by `str`), a JSON object (Python iterates a dict by its keys),
or anything else (Python then falls to the `tags = []` branch). -/
def Account.from_dict (now : String) (payload : List (String × JValue)) : Account :=
  let username := pyStr (jGetD payload "username" (.str ""))
  let password := pyStr (jGetD payload "password" (.str ""))
  let notes := pyStr (jGetD payload "notes" (.str ""))
  let tags : List String :=
    match jGetD payload "tags" (.arr []) with
    | .str s => pySplitComma s
    | .arr xs => xs.map pyStr
    | .obj kvs => kvs.map Prod.fst
    | _ => []
  let last_updated := pyStr (jGetD payload "last_updated" (.str now))
  Account.make username password notes tags last_updated

/-- Keyword changes accepted by `Account.updated`; `none` stands for an
absent (or `None`-valued) keyword, which `updated` filters out. -/
structure AccountChanges where
  username : Option String := none
  password : Option String := none
  notes : Option String := none
  tags : Option (List String) := none
  last_updated : Option String := none
deriving DecidableEq, Repr

/-- Embedding of `Account.updated`: apply the non-`None` changes (with
`tags` re-normalised), then unconditionally refresh `last_updated` to
`_now()` — so a `last_updated` change is always overwritten. -/
def Account.updatedWith (a : Account) (now : String) (c : AccountChanges) : Account :=
  { username := c.username.getD a.username
    password := c.password.getD a.password
    notes := c.notes.getD a.notes
    tags := (c.tags.map normalise_tags).getD a.tags
    last_updated := now }

/-- Embedding of the `ServiceData` dataclass. -/
structure ServiceData where
  name : String
  accounts : List Account
deriving DecidableEq, Repr

/-- Embedding of `ServiceData.from_dict`.  Python raises a `TypeError`
when the `accounts` value is not iterable, which the caller does not
catch; this is the `error` case.  Iterating a string or a dict yields
no dict entries, hence an empty account list. -/
def ServiceData.from_dict (now : String) (payload : List (String × JValue)) :
    Except String ServiceData :=
  let name := pyStr (jGetD payload "name" (.str ""))
  match jGetD payload "accounts" (.arr []) with
  | .arr entries =>
      .ok ⟨name, entries.filterMap (fun e =>
        match e with
        | .obj d => some (Account.from_dict now d)
        | _ => none)⟩
  | .str _ => .ok ⟨name, []⟩
  | .obj _ => .ok ⟨name, []⟩
  | _ => .error "TypeError: accounts value is not iterable"

/-! Embedding of `passwords.py`. -/

/-- Python `string.ascii_lowercase`. -/
def ascii_lowercase : String := "abcdefghijklmnopqrstuvwxyz"

/-- Python `string.ascii_uppercase`. -/
def ascii_uppercase : String := "ABCDEFGHIJKLMNOPQRSTUVWXYZ"

/-- Python `string.digits`. -/
def string_digits : String := "0123456789"

/-- Python `string.punctuation` (apostrophe, backquote and braces
written as character escapes). -/
def string_punctuation : String :=
  "!\"#$%&\x27()*+,-./:;<=>?@[\\]^_\x60\x7b|\x7d~"

/-- Embedding of the `PasswordPolicy` dataclass; `length` is a Python
`int`, hence `Int`. -/
structure PasswordPolicy where
  length : Int := 16
  use_lowercase : Bool := true
  use_uppercase : Bool := true
  use_digits : Bool := true
  use_symbols : Bool := true
deriving DecidableEq, Repr

/-- Embedding of `PasswordPolicy.character_pool`: concatenate the
enabled alphabets in the fixed order lowercase, uppercase, digits,
symbols; raise `ValueError` (the `error` case) on an empty pool. -/
def PasswordPolicy.character_pool (p : PasswordPolicy) : Except String String :=
  let pool :=
    (if p.use_lowercase then ascii_lowercase else "")
      ++ (if p.use_uppercase then ascii_uppercase else "")
      ++ (if p.use_digits then string_digits else "")
      ++ (if p.use_symbols then string_punctuation else "")
  if pool = "" then .error "At least one character group must be enabled"
  else .ok pool

/-- One draw of `secrets.choice(pool)`, with the randomness supplied by
the oracle value `k`, reduced modulo the pool size.  The pool is never
empty where this is called (`character_pool` raised otherwise), so the
fallback character is unreachable. -/
def pickChar (pool : List Char) (k : Nat) : Char :=
  pool.getD (k % pool.length) ' '

/-- Embedding of `generate_password`: `range(policy.length)` draws from
the pool (an empty range when the length is zero or negative, exactly as
in Python). -/
def generate_password (p : PasswordPolicy) (rand : Nat → Nat) : Except String String :=
  match p.character_pool with
  | .error e => .error e
  | .ok pool => .ok ⟨(List.range p.length.toNat).map (fun i => pickChar pool.data (rand i))⟩

/-- Embedding of the `PasswordStrength` dataclass. -/
structure PasswordStrength where
  score : Nat
  label : String
  color : String
  suggestions : List String
deriving DecidableEq, Repr

/-- Embedding of `estimate_password_strength`. -/
def estimate_password_strength (password : String) : PasswordStrength :=
  if password = "" then
    ⟨0, "Empty", "#808080", ["Use at least 12 characters."]⟩
  else
    let score : Nat := 0
    let suggestions : List String := []
    let length := password.length
    let (score, suggestions) :=
      if length ≥ 8 then (score + 1, suggestions)
      else (score, suggestions ++ ["Use at least 8 characters."])
    let (score, suggestions) :=
      if length ≥ 12 then (score + 1, suggestions)
      else (score, suggestions ++ ["Aim for 12 or more characters."])
    let categories : List Bool :=
      [password.data.any (fun c => c.isLower),
       password.data.any (fun c => c.isUpper),
       password.data.any (fun c => c.isDigit),
       password.data.any (fun c => string_punctuation.data.contains c)]
    let diversity := (categories.filter (fun flag => flag)).length
    let (score, suggestions) :=
      if diversity ≥ 3 then (score + 1, suggestions)
      else (score, suggestions ++ ["Mix upper, lower, digits and symbols."])
    let (score, suggestions) :=
      if diversity = 4 ∧ length ≥ 14 then (score + 1, suggestions)
      else if diversity < 4 then
        (score, suggestions ++ ["Add more character types for extra strength."])
      else (score, suggestions)
    let score := max 1 (min score 4)
    let (label, color) :=
      if score ≤ 1 then ("Weak", "#d64541")
      else if score = 2 then ("Fair", "#e67e22")
      else if score = 3 then ("Strong", "#2980b9")
      else ("Very strong", "#27ae60")
    ⟨score, label, color, suggestions⟩

/-! Embedding of the `DataStore` class.  The persisted file and the
number of times it has been written are part of the state. -/

/-- State of the persisted JSON file. -/
inductive FileState where
  | absent : FileState
  | corrupt : FileState
  | parsed : JValue → FileState

/-- In-memory plus on-disk state of a `DataStore`. -/
structure DataStore where
  services : List (String × ServiceData)
  file : FileState
  writes : Nat

/-- Serialisation used by `DataStore.save`. -/
def serialiseServices (services : List (String × ServiceData)) : JValue :=
  .obj (services.map (fun p =>
    (p.1, .obj [("accounts", .arr (p.2.accounts.map (fun a => .obj a.to_dict)))])))

/-- Embedding of `DataStore.save`: overwrite the file with the
serialised store (one write). -/
def DataStore.save (s : DataStore) : DataStore :=
  { s with file := .parsed (serialiseServices s.services), writes := s.writes + 1 }

/-- Construction loop of `DataStore.load`: build the services dict from
the top-level entries, skipping entries whose value is not an object;
an exception inside `ServiceData.from_dict` aborts the whole load. -/
def loadEntriesGo (now : String) (acc : List (String × ServiceData)) :
    List (String × JValue) → Except String (List (String × ServiceData))
  | [] => .ok acc
  | (n, v) :: rest =>
      match v with
      | .obj fields =>
          match ServiceData.from_dict now (fields ++ [("name", .str n)]) with
          | .ok svc => loadEntriesGo now (dictInsert acc n svc) rest
          | .error e => .error e
      | _ => loadEntriesGo now acc rest

/-- Embedding of `DataStore.load` as a function of the file state: a
missing file and an unparseable file both yield the empty store; a
parsed non-object payload raises `AttributeError` on `payload.items()`
(the `error` case).  The `name` key placed after the raw fields models
the Python merge `{"name": name, **raw_data}`, in which a `name` field
of the raw data wins. -/
def DataStore.loadFile (now : String) : FileState →
    Except String (List (String × ServiceData))
  | .absent => .ok []
  | .corrupt => .ok []
  | .parsed (.obj entries) => loadEntriesGo now [] entries
  | .parsed _ => .error "AttributeError: payload is not an object"

/-- Embedding of `DataStore.get_service`, restricted to its effect on
the services dict: create the (empty) entry when the name is unknown. -/
def DataStore.ensure (s : DataStore) (name : String) : DataStore :=
  if (dictLookup s.services name).isSome then s
  else { s with services := s.services ++ [(name, ⟨name, []⟩)] }

/-- Accounts of a service as currently held in memory (an unknown
service has none). -/
def DataStore.accountsOf (s : DataStore) (name : String) : List Account :=
  match dictLookup s.services name with
  | some svc => svc.accounts
  | none => []

/-- In-place replacement of the account list of the (aliased)
`ServiceData` object returned by `get_service`. -/
def setAccounts (services : List (String × ServiceData)) (name : String)
    (accs : List Account) : List (String × ServiceData) :=
  services.map (fun p => if p.1 = name then (p.1, ⟨p.2.name, accs⟩) else p)

/-- Embedding of `DataStore.list_accounts`.  Python's `get_service` can
create the (empty) service entry, so the call returns the updated store
state alongside the defensive copy of the account list. -/
def DataStore.list_accounts (s : DataStore) (name : String) :
    List Account × DataStore :=
  let s₁ := s.ensure name
  (s₁.accountsOf name, s₁)

/-- Embedding of `DataStore.add_account`: append, then persist. -/
def DataStore.add_account (s : DataStore) (name : String) (account : Account) :
    DataStore :=
  let s₁ := s.ensure name
  DataStore.save
    { s₁ with services := setAccounts s₁.services name (s₁.accountsOf name ++ [account]) }

/-- Embedding of `DataStore.update_account`: replace in range (then
persist), silently do nothing out of range. -/
def DataStore.update_account (s : DataStore) (name : String) (index : Int)
    (account : Account) : DataStore :=
  let s₁ := s.ensure name
  let accs := s₁.accountsOf name
  if 0 ≤ index ∧ index < (accs.length : Int) then
    DataStore.save
      { s₁ with services := setAccounts s₁.services name (accs.set index.toNat account) }
  else s₁

/-- Embedding of `DataStore.delete_account`: remove in range (then
persist), silently do nothing out of range. -/
def DataStore.delete_account (s : DataStore) (name : String) (index : Int) :
    DataStore :=
  let s₁ := s.ensure name
  let accs := s₁.accountsOf name
  if 0 ≤ index ∧ index < (accs.length : Int) then
    DataStore.save
      { s₁ with services := setAccounts s₁.services name (accs.eraseIdx index.toNat) }
  else s₁

/-! Embedding of the CSV import (`DataStore.import_service_from_csv`).
Per the spec, imported rows are well formed: each row read by
`csv.DictReader` binds the five header columns to raw strings. -/

/-- One CSV row under the header
`username,password,notes,tags,last_updated`. -/
structure CsvRow where
  username : String
  password : String
  notes : String
  tags : String
  last_updated : String
deriving DecidableEq, Repr

/-- Python dict produced by `csv.DictReader` for a row. -/
def CsvRow.payload (r : CsvRow) : List (String × JValue) :=
  [("username", .str r.username),
   ("password", .str r.password),
   ("notes", .str r.notes),
   ("tags", .str r.tags),
   ("last_updated", .str r.last_updated)]

/-- Account built from a row, `Account.from_dict(row)`. -/
def CsvRow.toAccount (now : String) (r : CsvRow) : Account :=
  Account.from_dict now r.payload

/-- Inner loop of the dict comprehension
`{account.username: idx for idx, account in enumerate(accounts)}`,
with `i` the index of the first element of the remaining list. -/
def seenGo (m : List (String × Nat)) (i : Nat) : List String → List (String × Nat)
  | [] => m
  | u :: rest => seenGo (dictInsert m u i) (i + 1) rest

/-- Lookup of existing accounts by username, built before the rows are
processed (later duplicates overwrite the stored index, as in a Python
dict comprehension). -/
def seenOf (accounts : List Account) : List (String × Nat) :=
  seenGo [] 0 (accounts.map (fun a => a.username))

/-- Loop state of the import: the service's account list (mutated in
place), the `seen` dict, and the two counters. -/
structure ImportState where
  accounts : List Account
  seen : List (String × Nat)
  added : Nat
  updated : Nat
deriving DecidableEq, Repr

/-- Body of the row loop of `import_service_from_csv`.  A username hit
replaces the stored account's password, notes and tags (re-normalised)
through `Account.updated` and counts as updated; a miss appends the row
account, registers its index, and counts as added.  The inner `none`
branch is unreachable (every index in `seen` is in range; Python would
raise `IndexError` there). -/
def importStep (now : String) (st : ImportState) (r : CsvRow) : ImportState :=
  let account := r.toAccount now
  match dictLookup st.seen account.username with
  | some index =>
      match st.accounts[index]? with
      | some old =>
          { st with
            accounts := st.accounts.set index
              (old.updatedWith now
                { password := some account.password
                  notes := some account.notes
                  tags := some account.tags })
            updated := st.updated + 1 }
      | none => st
  | none =>
      { st with
        accounts := st.accounts ++ [account]
        seen := dictInsert st.seen account.username st.accounts.length
        added := st.added + 1 }

/-- Embedding of `DataStore.import_service_from_csv`: build the lookup
of the existing accounts, fold the rows through `importStep`, then
persist once; returns `(added, updated)` with the new store state. -/
def DataStore.import_service_from_csv (now : String) (s : DataStore)
    (name : String) (rows : List CsvRow) : (Nat × Nat) × DataStore :=
  let s₁ := s.ensure name
  let accs := s₁.accountsOf name
  let final := rows.foldl (importStep now) ⟨accs, seenOf accs, 0, 0⟩
  ((final.added, final.updated),
   DataStore.save { s₁ with services := setAccounts s₁.services name final.accounts })

/-- Account with its timestamp blanked, for "equal except
`last_updated`" statements. -/
def Account.eraseTime (a : Account) : Account :=
  { a with last_updated := "" }

/-- Elements of a normalised tag list are stripped and non-empty, and
the list has no duplicates. -/
def NormalisedTags (l : List String) : Prop :=
  (∀ t ∈ l, pyStrip t = t ∧ t ≠ "") ∧ l.Nodup

/-! Basic association-list (Python dict) lemmas. -/

theorem dictLookup_dictInsert_self {α : Type} (m : List (String × α)) (k : String)
    (v : α) : dictLookup (dictInsert m k v) k = some v := by
  induction m with
  | nil => simp [dictInsert, dictLookup]
  | cons p rest ih =>
      obtain ⟨k₂, w⟩ := p
      by_cases h : k₂ = k
      · simp [dictInsert, dictLookup, h]
      · simp [dictInsert, dictLookup, h, ih]

theorem dictLookup_dictInsert_ne {α : Type} (m : List (String × α)) {k k₂ : String}
    (v : α) (h : k₂ ≠ k) : dictLookup (dictInsert m k v) k₂ = dictLookup m k₂ := by
  have hk₂ : ¬ k = k₂ := fun hh => h hh.symm
  induction m with
  | nil => simp [dictInsert, dictLookup, hk₂]
  | cons p rest ih =>
      obtain ⟨k₃, w⟩ := p
      by_cases hk : k₃ = k
      · subst hk
        simp only [dictInsert, if_pos rfl, dictLookup, if_neg hk₂]
      · simp only [dictInsert, if_neg hk, dictLookup]
        by_cases hk₃ : k₃ = k₂
        · simp [hk₃]
        · simp [hk₃, ih]

theorem dictInsert_of_lookup_none {α : Type} {m : List (String × α)} {k : String}
    (v : α) (h : dictLookup m k = none) : dictInsert m k v = m ++ [(k, v)] := by
  induction m with
  | nil => simp [dictInsert]
  | cons p rest ih =>
      obtain ⟨k₂, w⟩ := p
      by_cases hk : k₂ = k
      · simp [dictLookup, hk] at h
      · simp only [dictLookup, if_neg hk] at h
        simp [dictInsert, hk, ih h]

theorem dictLookup_append_of_none {α : Type} {l₁ : List (String × α)} {k : String}
    (l₂ : List (String × α)) (h : dictLookup l₁ k = none) :
    dictLookup (l₁ ++ l₂) k = dictLookup l₂ k := by
  induction l₁ with
  | nil => simp
  | cons p rest ih =>
      obtain ⟨k₂, w⟩ := p
      by_cases hk : k₂ = k
      · simp [dictLookup, hk] at h
      · simp only [dictLookup, if_neg hk] at h
        simp [dictLookup, hk, ih h]

theorem dictLookup_append_of_some {α : Type} {l₁ : List (String × α)} {k : String}
    {v : α} (l₂ : List (String × α)) (h : dictLookup l₁ k = some v) :
    dictLookup (l₁ ++ l₂) k = some v := by
  induction l₁ with
  | nil => simp [dictLookup] at h
  | cons p rest ih =>
      obtain ⟨k₂, w⟩ := p
      by_cases hk : k₂ = k
      · rw [List.cons_append]
        simp only [dictLookup, if_pos hk] at h ⊢
        exact h
      · simp only [dictLookup, if_neg hk] at h ⊢
        exact ih h

/-! Lemmas on `pyStrip` leading to idempotence of tag normalisation. -/

theorem dropWhile_head_false {p : Char → Bool} :
    ∀ {l : List Char} {x : Char} {xs : List Char},
      l.dropWhile p = x :: xs → p x = false := by
  intro l
  induction l with
  | nil => intro x xs h; simp [List.dropWhile] at h
  | cons a rest ih =>
      intro x xs h
      by_cases ha : p a
      · rw [List.dropWhile_cons_of_pos ha] at h
        exact ih h
      · rw [List.dropWhile_cons_of_neg ha] at h
        cases h
        exact Bool.of_not_eq_true ha

theorem dropWhile_eq_self_of_head {p : Char → Bool} {l : List Char}
    (h : ∀ x xs, l = x :: xs → p x = false) : l.dropWhile p = l := by
  cases l with
  | nil => rfl
  | cons a rest =>
      have := h a rest rfl
      rw [List.dropWhile_cons_of_neg (by simp [this])]

theorem exists_append_dropWhile (p : Char → Bool) :
    ∀ l : List Char, ∃ t, t ++ l.dropWhile p = l := by
  intro l
  induction l with
  | nil => exact ⟨[], rfl⟩
  | cons a rest ih =>
      by_cases ha : p a
      · obtain ⟨t, ht⟩ := ih
        exact ⟨a :: t, by rw [List.dropWhile_cons_of_pos ha]; simp [ht]⟩
      · exact ⟨[], by rw [List.dropWhile_cons_of_neg ha]; rfl⟩

theorem dropWhile_dropWhile (p : Char → Bool) (l : List Char) :
    (l.dropWhile p).dropWhile p = l.dropWhile p := by
  apply dropWhile_eq_self_of_head
  intro x xs h
  exact dropWhile_head_false h

theorem stripList_head_false (p : Char → Bool) (l : List Char) {x : Char}
    {xs : List Char} (h : ((l.dropWhile p).reverse.dropWhile p).reverse = x :: xs) :
    p x = false := by
  obtain ⟨t, ht⟩ := exists_append_dropWhile p (l.dropWhile p).reverse
  have hma : ((l.dropWhile p).reverse.dropWhile p).reverse ++ t.reverse = l.dropWhile p := by
    calc ((l.dropWhile p).reverse.dropWhile p).reverse ++ t.reverse
        = (t ++ (l.dropWhile p).reverse.dropWhile p).reverse := by
          rw [List.reverse_append]
      _ = (l.dropWhile p).reverse.reverse := by rw [ht]
      _ = l.dropWhile p := List.reverse_reverse _
  have hax : l.dropWhile p = x :: (xs ++ t.reverse) := by
    rw [← hma, h]; rfl
  exact dropWhile_head_false hax

theorem pyStripList_idem (l : List Char) : pyStripList (pyStripList l) = pyStripList l := by
  unfold pyStripList
  have h₁ : (((l.dropWhile Char.isWhitespace).reverse.dropWhile
      Char.isWhitespace).reverse).dropWhile Char.isWhitespace
      = ((l.dropWhile Char.isWhitespace).reverse.dropWhile Char.isWhitespace).reverse := by
    apply dropWhile_eq_self_of_head
    intro x xs hxs
    exact stripList_head_false Char.isWhitespace l hxs
  rw [h₁, List.reverse_reverse, dropWhile_dropWhile]

theorem pyStrip_idem (s : String) : pyStrip (pyStrip s) = pyStrip s := by
  cases s with
  | mk data => simp [pyStrip, pyStripList_idem]


theorem normaliseTagsGo_normalised :
    ∀ (ts cleaned : List String), NormalisedTags cleaned →
      NormalisedTags (normaliseTagsGo cleaned ts) := by
  intro ts
  induction ts with
  | nil => intro cleaned h; exact h
  | cons tag rest ih =>
      intro cleaned h
      obtain ⟨helem, hnodup⟩ := h
      simp only [normaliseTagsGo]
      by_cases hc : pyStrip tag ≠ "" ∧ pyStrip tag ∉ cleaned
      · rw [if_pos hc]
        apply ih
        constructor
        · intro t ht
          rcases List.mem_append.mp ht with h₁ | h₂
          · exact helem t h₁
          · have : t = pyStrip tag := by simpa using h₂
            subst this
            exact ⟨pyStrip_idem tag, hc.1⟩
        · rw [List.nodup_append]
          exact ⟨hnodup, List.nodup_singleton _,
            by intro a ha hb; simp at hb; exact hc.2 (hb ▸ ha)⟩
      · rw [if_neg hc]
        exact ih cleaned ⟨helem, hnodup⟩

theorem normaliseTagsGo_fixed :
    ∀ (ts cleaned : List String), (∀ t ∈ ts, pyStrip t = t ∧ t ≠ "") →
      (cleaned ++ ts).Nodup → normaliseTagsGo cleaned ts = cleaned ++ ts := by
  intro ts
  induction ts with
  | nil => intro cleaned _ _; simp [normaliseTagsGo]
  | cons t rest ih =>
      intro cleaned hts hnodup
      obtain ⟨hstrip, hne⟩ := hts t (by simp)
      have hmem : t ∉ cleaned := by
        rcases List.nodup_append.mp hnodup with ⟨-, -, hdisj⟩
        intro hmemc
        exact hdisj hmemc (by simp)
      simp only [normaliseTagsGo, hstrip]
      rw [if_pos ⟨hne, hmem⟩]
      have hre : cleaned ++ t :: rest = (cleaned ++ [t]) ++ rest := by simp
      rw [hre] at hnodup ⊢
      exact ih (cleaned ++ [t]) (fun u hu => hts u (by simp [hu])) hnodup

theorem normalise_tags_normalised (l : List String) :
    NormalisedTags (normalise_tags l) :=
  normaliseTagsGo_normalised l [] ⟨by simp, List.nodup_nil⟩

theorem normalise_tags_idem (l : List String) :
    normalise_tags (normalise_tags l) = normalise_tags l := by
  obtain ⟨helem, hnodup⟩ := normalise_tags_normalised l
  have := normaliseTagsGo_fixed (normalise_tags l) [] helem (by simpa using hnodup)
  simpa [normalise_tags] using this

/-- Claim C6: tag normalisation (trim, drop empties, deduplicate by
exact value keeping first-occurrence order) is idempotent; the list
`["a", " a ", "", "b", "a"]` normalises to `["a", "b"]`; and an
Account's tags are normalised on construction (the dataclass
constructor) and on any partial update through `Account.updated` that
supplies tags. -/
theorem claim_C6_tag_normalisation :
    (∀ l, normalise_tags (normalise_tags l) = normalise_tags l)
    ∧ normalise_tags ["a", " a ", "", "b", "a"] = ["a", "b"]
    ∧ (∀ u p n t lu, (Account.make u p n t lu).tags = normalise_tags t)
    ∧ (∀ (a : Account) (now : String) (un pw no lu) (t : List String),
        (a.updatedWith now ⟨un, pw, no, some t, lu⟩).tags = normalise_tags t) := by
  refine ⟨normalise_tags_idem, by decide, fun u p n t lu => rfl,
    fun a now un pw no lu t => rfl⟩

/-- Claim C3: the strength estimator follows the nine-step algorithm on
the four reference inputs (empty, `abcdefgh`, `Abcdefghijkl1!`,
`abcdefghijkl`), and for every non-empty password the score lies in
`[1, 4]` — the empty password is the only input scoring 0. -/
theorem claim_C3_strength_estimator :
    (estimate_password_strength "").score = 0
    ∧ (estimate_password_strength "").label = "Empty"
    ∧ (estimate_password_strength "abcdefgh").score = 1
    ∧ (estimate_password_strength "abcdefgh").label = "Weak"
    ∧ (estimate_password_strength "Abcdefghijkl1!").score = 4
    ∧ (estimate_password_strength "Abcdefghijkl1!").label = "Very strong"
    ∧ (estimate_password_strength "abcdefghijkl").score = 2
    ∧ (estimate_password_strength "abcdefghijkl").label = "Fair"
    ∧ (∀ p : String, p ≠ "" →
        1 ≤ (estimate_password_strength p).score
          ∧ (estimate_password_strength p).score ≤ 4)
    ∧ (∀ p : String, (estimate_password_strength p).score = 0 → p = "") := by
  have hbound : ∀ p : String, p ≠ "" →
      1 ≤ (estimate_password_strength p).score
        ∧ (estimate_password_strength p).score ≤ 4 := by
    intro p hp
    simp only [estimate_password_strength, if_neg hp]
    repeat' split
    all_goals simp
  refine ⟨by decide, by decide, by decide, by decide, by decide, by decide,
    by decide, by decide, hbound, ?_⟩
  intro p h0
  by_contra hp
  have := (hbound p hp).1
  omega

/-- Witness for claim C3 at concrete inputs. -/
theorem claim_C3_witness :
    (1 ≤ (estimate_password_strength "abc").score
      ∧ (estimate_password_strength "abc").score ≤ 4)
    ∧ ("" : String) = "" :=
  ⟨claim_C3_strength_estimator.2.2.2.2.2.2.2.2.1 "abc" (by decide),
   claim_C3_strength_estimator.2.2.2.2.2.2.2.2.2 "" (by decide)⟩

/-! Lemmas for the password generator claims. -/

theorem string_data_ne_nil {s : String} (h : s ≠ "") : s.data ≠ [] := by
  intro hd
  apply h
  cases s with
  | mk l =>
      simp only [] at hd
      subst hd
      rfl

theorem pickChar_mem {pool : List Char} (h : pool ≠ []) (k : Nat) :
    pickChar pool k ∈ pool := by
  unfold pickChar
  have hlt : k % pool.length < pool.length := Nat.mod_lt _ (List.length_pos.mpr h)
  rw [List.getD_eq_getElem?_getD, List.getElem?_eq_getElem hlt, Option.getD_some]
  exact List.getElem_mem hlt

theorem pool_concat_ne_empty (p : PasswordPolicy)
    (h : p.use_lowercase = true ∨ p.use_uppercase = true ∨ p.use_digits = true
      ∨ p.use_symbols = true) :
    (if p.use_lowercase then ascii_lowercase else "")
      ++ (if p.use_uppercase then ascii_uppercase else "")
      ++ (if p.use_digits then string_digits else "")
      ++ (if p.use_symbols then string_punctuation else "") ≠ "" := by
  intro hempty
  have hlen := congrArg String.length hempty
  rw [String.length_append, String.length_append, String.length_append] at hlen
  have e2 : ascii_lowercase.length = 26 := rfl
  have e3 : ascii_uppercase.length = 26 := rfl
  have e4 : string_digits.length = 10 := rfl
  have e5 : string_punctuation.length = 32 := rfl
  rcases h with h | h | h | h <;> rw [h] at hlen <;> simp only [if_true] at hlen <;>
    simp [e2, e3, e4, e5] at hlen

theorem character_pool_of_enabled (p : PasswordPolicy)
    (h : p.use_lowercase = true ∨ p.use_uppercase = true ∨ p.use_digits = true
      ∨ p.use_symbols = true) :
    p.character_pool = .ok ((if p.use_lowercase then ascii_lowercase else "")
      ++ (if p.use_uppercase then ascii_uppercase else "")
      ++ (if p.use_digits then string_digits else "")
      ++ (if p.use_symbols then string_punctuation else "")) := by
  unfold PasswordPolicy.character_pool
  rw [if_neg (pool_concat_ne_empty p h)]

/-- Claim C5: with at least one class enabled, `generate_password`
returns a string of exactly `policy.length` characters, each drawn from
`character_pool`, the concatenation of the enabled alphabets in the
fixed order lowercase, uppercase, digits, symbols; with every class
disabled it fails with the configuration error and never substitutes a
default pool. -/
theorem claim_C5_generate_password (p : PasswordPolicy) (rand : Nat → Nat) :
    ((p.use_lowercase = true ∨ p.use_uppercase = true ∨ p.use_digits = true
        ∨ p.use_symbols = true) →
      ∃ pool s,
        p.character_pool = .ok pool
        ∧ pool = (if p.use_lowercase then ascii_lowercase else "")
            ++ (if p.use_uppercase then ascii_uppercase else "")
            ++ (if p.use_digits then string_digits else "")
            ++ (if p.use_symbols then string_punctuation else "")
        ∧ generate_password p rand = .ok s
        ∧ s.length = p.length.toNat
        ∧ (0 ≤ p.length → (s.length : Int) = p.length)
        ∧ ∀ c ∈ s.data, c ∈ pool.data)
    ∧ (p.use_lowercase = false → p.use_uppercase = false → p.use_digits = false →
        p.use_symbols = false →
        generate_password p rand
          = .error "At least one character group must be enabled") := by
  constructor
  · intro h
    have hpool := character_pool_of_enabled p h
    have hgen : generate_password p rand
        = .ok ⟨(List.range p.length.toNat).map (fun i =>
            pickChar ((if p.use_lowercase then ascii_lowercase else "")
              ++ (if p.use_uppercase then ascii_uppercase else "")
              ++ (if p.use_digits then string_digits else "")
              ++ (if p.use_symbols then string_punctuation else "")).data (rand i))⟩ := by
      unfold generate_password
      rw [hpool]
    refine ⟨_, _, hpool, rfl, hgen, ?_, ?_, ?_⟩
    · simp [String.length]
    · intro hpos
      simp [String.length, Int.toNat_of_nonneg hpos]
    · intro c hc
      simp only [] at hc
      obtain ⟨i, -, hi⟩ := List.mem_map.mp hc
      rw [← hi]
      exact pickChar_mem (by
        apply string_data_ne_nil
        exact pool_concat_ne_empty p h) (rand i)
  · intro h1 h2 h3 h4
    unfold generate_password PasswordPolicy.character_pool
    rw [h1, h2, h3, h4]
    simp

/-- Witness for claim C5: the default policy (all classes enabled,
length 16) and a policy with every class disabled. -/
theorem claim_C5_witness :
    (∃ pool s,
        PasswordPolicy.character_pool {} = .ok pool
        ∧ pool = (if ({} : PasswordPolicy).use_lowercase then ascii_lowercase else "")
            ++ (if ({} : PasswordPolicy).use_uppercase then ascii_uppercase else "")
            ++ (if ({} : PasswordPolicy).use_digits then string_digits else "")
            ++ (if ({} : PasswordPolicy).use_symbols then string_punctuation else "")
        ∧ generate_password {} (fun i => i) = .ok s
        ∧ s.length = ({} : PasswordPolicy).length.toNat
        ∧ (0 ≤ ({} : PasswordPolicy).length → (s.length : Int) = ({} : PasswordPolicy).length)
        ∧ ∀ c ∈ s.data, c ∈ pool.data)
    ∧ generate_password
        { use_lowercase := false, use_uppercase := false, use_digits := false,
          use_symbols := false } (fun i => i)
        = .error "At least one character group must be enabled" :=
  ⟨(claim_C5_generate_password {} (fun i => i)).1 (Or.inl rfl),
   (claim_C5_generate_password
      { use_lowercase := false, use_uppercase := false, use_digits := false,
        use_symbols := false } (fun i => i)).2 rfl rfl rfl rfl⟩

/-- Claim C10: with a zero or negative length and at least one class
enabled, `generate_password` returns the empty string and signals no
error — the core does not enforce the documented lower bound of 1. -/
theorem claim_C10_nonpositive_length (p : PasswordPolicy) (rand : Nat → Nat)
    (hlen : p.length ≤ 0)
    (h : p.use_lowercase = true ∨ p.use_uppercase = true ∨ p.use_digits = true
      ∨ p.use_symbols = true) :
    generate_password p rand = .ok "" := by
  unfold generate_password
  rw [character_pool_of_enabled p h]
  rw [Int.toNat_of_nonpos hlen]
  rfl

/-- Witness for claim C10: the default classes with length `-3`. -/
theorem claim_C10_witness :
    generate_password { length := -3 } (fun i => i) = .ok "" :=
  claim_C10_nonpositive_length { length := -3 } (fun i => i) (by decide) (Or.inl rfl)

/-! Lemmas about `DataStore.ensure` (the lazy entry creation performed
by `get_service`). -/

theorem ensure_file (s : DataStore) (name : String) : (s.ensure name).file = s.file := by
  unfold DataStore.ensure
  split <;> rfl

theorem ensure_writes (s : DataStore) (name : String) :
    (s.ensure name).writes = s.writes := by
  unfold DataStore.ensure
  split <;> rfl

theorem ensure_lookup (s : DataStore) (name : String) :
    dictLookup (s.ensure name).services name
      = some ⟨(dictLookup s.services name).elim name ServiceData.name,
          s.accountsOf name⟩ := by
  unfold DataStore.ensure DataStore.accountsOf
  cases hl : dictLookup s.services name with
  | some svc => simp [hl]
  | none =>
      simp only [hl, Option.isSome_none, Bool.false_eq_true, if_false]
      rw [dictLookup_append_of_none _ hl]
      simp [dictLookup]

theorem ensure_accountsOf (s : DataStore) (name m : String) :
    (s.ensure name).accountsOf m = s.accountsOf m := by
  unfold DataStore.ensure
  cases hl : dictLookup s.services name with
  | some svc => simp [hl]
  | none =>
      simp only [hl, Option.isSome_none, Bool.false_eq_true, if_false]
      unfold DataStore.accountsOf
      by_cases hm : m = name
      · subst hm
        rw [dictLookup_append_of_none _ hl, hl]
        simp [dictLookup]
      · cases hlm : dictLookup s.services m with
        | some svc => rw [dictLookup_append_of_some _ hlm]
        | none =>
            rw [dictLookup_append_of_none _ hlm]
            have hnm : ¬ name = m := fun hh => hm hh.symm
            simp [dictLookup, hnm]

/-- Claim C4: for any index outside `[0, length)` of a service's account
list, `update_account` and `delete_account` signal no error (they are
total functions), change no service's account list, and do not write the
store file (neither its contents nor the write counter move). -/
theorem claim_C4_out_of_range_noop (s : DataStore) (name : String) (index : Int)
    (account : Account)
    (h : ¬ (0 ≤ index ∧ index < ((s.accountsOf name).length : Int))) :
    ((s.update_account name index account).file = s.file
      ∧ (s.update_account name index account).writes = s.writes
      ∧ ∀ n, (s.update_account name index account).accountsOf n = s.accountsOf n)
    ∧ ((s.delete_account name index).file = s.file
      ∧ (s.delete_account name index).writes = s.writes
      ∧ ∀ n, (s.delete_account name index).accountsOf n = s.accountsOf n) := by
  have hu : s.update_account name index account = s.ensure name := by
    simp only [DataStore.update_account, ensure_accountsOf]
    exact if_neg h
  have hd : s.delete_account name index = s.ensure name := by
    simp only [DataStore.delete_account, ensure_accountsOf]
    exact if_neg h
  rw [hu, hd]
  exact ⟨⟨ensure_file s name, ensure_writes s name, fun n => ensure_accountsOf s name n⟩,
    ⟨ensure_file s name, ensure_writes s name, fun n => ensure_accountsOf s name n⟩⟩

/-- Witness for claim C4: a one-account store and the out-of-range
index 5 (and, through the same instance, index within the service
`other` that does not exist). -/
theorem claim_C4_witness :
    ((DataStore.update_account
        ⟨[("svc", ⟨"svc", [Account.make "u" "p" "" [] "T"]⟩)], .absent, 0⟩
        "svc" 5 (Account.make "v" "q" "" [] "T")).writes = 0
    ∧ (DataStore.delete_account
        ⟨[("svc", ⟨"svc", [Account.make "u" "p" "" [] "T"]⟩)], .absent, 0⟩
        "svc" 5).accountsOf "svc"
      = DataStore.accountsOf
          ⟨[("svc", ⟨"svc", [Account.make "u" "p" "" [] "T"]⟩)], .absent, 0⟩ "svc") := by
  have h := claim_C4_out_of_range_noop
    ⟨[("svc", ⟨"svc", [Account.make "u" "p" "" [] "T"]⟩)], .absent, 0⟩
    "svc" 5 (Account.make "v" "q" "" [] "T") (by decide)
  exact ⟨h.1.2.1, h.2.2.2 "svc"⟩

/-- Claim C9: `list_accounts` never touches the persisted file or the
write counter, and referencing an unknown service creates it lazily in
memory as an empty collection (appended to the services dict) while
returning the empty list. -/
theorem claim_C9_lazy_service_creation (s : DataStore) (name : String) :
    ((s.list_accounts name).2.file = s.file
      ∧ (s.list_accounts name).2.writes = s.writes)
    ∧ (dictLookup s.services name = none →
        (s.list_accounts name).1 = []
        ∧ (s.list_accounts name).2.services
            = s.services ++ [(name, ⟨name, []⟩)]) := by
  simp only [DataStore.list_accounts]
  refine ⟨⟨ensure_file s name, ensure_writes s name⟩, ?_⟩
  intro h
  constructor
  · rw [ensure_accountsOf]
    unfold DataStore.accountsOf
    rw [h]
  · unfold DataStore.ensure
    rw [h]
    rfl

/-- Witness for claim C9: an empty store and the service `svc`. -/
theorem claim_C9_witness :
    ((DataStore.list_accounts ⟨[], .absent, 0⟩ "svc").2.writes = 0)
    ∧ (DataStore.list_accounts ⟨[], .absent, 0⟩ "svc").1 = []
    ∧ (DataStore.list_accounts ⟨[], .absent, 0⟩ "svc").2.services
        = [] ++ [("svc", ⟨"svc", []⟩)] := by
  have h := claim_C9_lazy_service_creation ⟨[], .absent, 0⟩ "svc"
  exact ⟨h.1.2, (h.2 rfl).1, (h.2 rfl).2⟩

/-! Lemmas about `DataStore.load`. -/

theorem loadEntriesGo_filter_isObj (now : String) :
    ∀ (entries : List (String × JValue)) (acc : List (String × ServiceData)),
      loadEntriesGo now acc entries
        = loadEntriesGo now acc (entries.filter (fun p => p.2.isObj)) := by
  intro entries
  induction entries with
  | nil => intro acc; rfl
  | cons p rest ih =>
      intro acc
      obtain ⟨n, v⟩ := p
      cases v with
      | obj fields =>
          simp only [List.filter_cons, JValue.isObj, if_pos rfl, loadEntriesGo]
          cases ServiceData.from_dict now (fields ++ [("name", .str n)]) with
          | ok svc => exact ih (dictInsert acc n svc)
          | error e => rfl
      | null => simpa [List.filter_cons, JValue.isObj, loadEntriesGo] using ih acc
      | bool b => simpa [List.filter_cons, JValue.isObj, loadEntriesGo] using ih acc
      | num m => simpa [List.filter_cons, JValue.isObj, loadEntriesGo] using ih acc
      | str s => simpa [List.filter_cons, JValue.isObj, loadEntriesGo] using ih acc
      | arr xs => simpa [List.filter_cons, JValue.isObj, loadEntriesGo] using ih acc

/-- Claim C8: `load` recovers locally — a missing file and an
unparseable file both yield the empty store with no error; and when
parsing succeeds, top-level entries whose value is not an object are
ignored (dropping them from the payload does not change the result). -/
theorem claim_C8_load_recovery (now : String) :
    DataStore.loadFile now .absent = .ok []
    ∧ DataStore.loadFile now .corrupt = .ok []
    ∧ ∀ entries : List (String × JValue),
        DataStore.loadFile now (.parsed (.obj entries))
          = DataStore.loadFile now
              (.parsed (.obj (entries.filter (fun p => p.2.isObj)))) := by
  refine ⟨rfl, rfl, fun entries => ?_⟩
  simp only [DataStore.loadFile]
  exact loadEntriesGo_filter_isObj now entries []

/-! Round-trip lemmas for claim C2. -/

theorem map_pyStr_str : ∀ ts : List String, (ts.map JValue.str).map pyStr = ts := by
  intro ts
  induction ts with
  | nil => rfl
  | cons t rest ih => simp [pyStr, ih]

theorem account_from_to_dict (now : String) (a : Account)
    (h : normalise_tags a.tags = a.tags) :
    Account.from_dict now a.to_dict = a := by
  obtain ⟨u, pw, no, tags, lu⟩ := a
  unfold Account.from_dict Account.to_dict
  have hcomp : List.map (pyStr ∘ JValue.str) tags = tags := by
    rw [← List.map_map]
    exact map_pyStr_str tags
  simp only [jGetD, dictLookup]
  simp [pyStr, Account.make, hcomp, h]

theorem filterMap_obj_to_dict (now : String) :
    ∀ accs : List Account, (∀ a ∈ accs, normalise_tags a.tags = a.tags) →
      List.filterMap (fun e =>
          match e with
          | JValue.obj d => some (Account.from_dict now d)
          | _ => none) (accs.map (fun a => JValue.obj a.to_dict)) = accs := by
  intro accs
  induction accs with
  | nil => intro _; rfl
  | cons a rest ih =>
      intro h
      simp only [List.map_cons, List.filterMap_cons]
      rw [ih (fun b hb => h b (by simp [hb]))]
      rw [account_from_to_dict now a (h a (by simp))]

theorem service_from_serial (now n : String) (accs : List Account)
    (h : ∀ a ∈ accs, normalise_tags a.tags = a.tags) :
    ServiceData.from_dict now
      ([("accounts", .arr (accs.map (fun a => .obj a.to_dict)))] ++ [("name", .str n)])
      = .ok ⟨n, accs⟩ := by
  unfold ServiceData.from_dict
  simp only [jGetD, dictLookup, List.cons_append, List.nil_append]
  simp [pyStr, filterMap_obj_to_dict now accs h]

theorem loadEntriesGo_serialised (now : String) :
    ∀ (services : List (String × ServiceData)) (acc : List (String × ServiceData)),
      (services.map Prod.fst).Nodup →
      (∀ k ∈ services.map Prod.fst, dictLookup acc k = none) →
      (∀ p ∈ services, ∀ a ∈ p.2.accounts, normalise_tags a.tags = a.tags) →
      loadEntriesGo now acc (services.map (fun p =>
          (p.1, JValue.obj
            [("accounts", .arr (p.2.accounts.map (fun a => .obj a.to_dict)))])))
        = .ok (acc ++ services.map (fun p => (p.1, ⟨p.1, p.2.accounts⟩))) := by
  intro services
  induction services with
  | nil => intro acc _ _ _; simp [loadEntriesGo]
  | cons p rest ih =>
      intro acc hnodup hdisj htags
      obtain ⟨n, svc⟩ := p
      simp only [List.map_cons, loadEntriesGo]
      rw [service_from_serial now n svc.accounts
        (fun a ha => htags (n, svc) (by simp) a ha)]
      show loadEntriesGo now (dictInsert acc n ⟨n, svc.accounts⟩) _ = _
      rw [dictInsert_of_lookup_none _ (hdisj n (by simp))]
      rw [List.map_cons] at hnodup
      obtain ⟨hn, hrest⟩ := List.nodup_cons.mp hnodup
      have hdisj₂ : ∀ k ∈ rest.map Prod.fst,
          dictLookup (acc ++ [(n, (⟨n, svc.accounts⟩ : ServiceData))]) k = none := by
        intro k hk
        rw [dictLookup_append_of_none _ (hdisj k (by simp [hk]))]
        have hkn : ¬ n = k := fun hh => hn (hh ▸ hk)
        simp [dictLookup, hkn]
      have htags₂ : ∀ p ∈ rest, ∀ a ∈ p.2.accounts, normalise_tags a.tags = a.tags :=
        fun q hq a ha => htags q (by simp [hq]) a ha
      have hih := ih (acc ++ [(n, ⟨n, svc.accounts⟩)]) hrest hdisj₂ htags₂
      rw [List.append_assoc, List.singleton_append] at hih
      exact hih

/-- Claim C2: `save()` followed by `load()` into a fresh store with the
same storage location reproduces every service: the loaded store maps
each service name to the same ordered account list, field for field (the
store's accounts are tag-normalised, and its service keys — being
Python dict keys — are distinct). -/
theorem claim_C2_save_load_round_trip (now : String) (s : DataStore)
    (hkeys : (s.services.map Prod.fst).Nodup)
    (htags : ∀ p ∈ s.services, ∀ a ∈ p.2.accounts, normalise_tags a.tags = a.tags) :
    ∃ loaded,
      DataStore.loadFile now (s.save).file = .ok loaded
      ∧ loaded = s.services.map (fun p => (p.1, ⟨p.1, p.2.accounts⟩))
      ∧ loaded.map (fun p => (p.1, p.2.accounts))
          = s.services.map (fun p => (p.1, p.2.accounts)) := by
  refine ⟨s.services.map (fun p => (p.1, ⟨p.1, p.2.accounts⟩)), ?_, rfl, ?_⟩
  · show DataStore.loadFile now (.parsed (serialiseServices s.services)) = _
    unfold serialiseServices
    show loadEntriesGo now [] _ = _
    rw [loadEntriesGo_serialised now s.services [] hkeys (fun k _ => rfl) htags]
    simp
  · simp [List.map_map]

/-- Witness for claim C2: a store with two services and two accounts. -/
theorem claim_C2_witness :
    ∃ loaded : List (String × ServiceData),
      DataStore.loadFile "T2"
        (DataStore.save
          ⟨[("svc", ⟨"svc", [Account.make "u" "p" "n" ["a", "b"] "T0"]⟩),
            ("s2", ⟨"s2", [Account.make "v" "q" "" [] "T1"]⟩)], .absent, 0⟩).file
        = .ok loaded
      ∧ loaded = ([("svc", ⟨"svc", [Account.make "u" "p" "n" ["a", "b"] "T0"]⟩),
            ("s2", ⟨"s2", [Account.make "v" "q" "" [] "T1"]⟩)]
              : List (String × ServiceData)).map
            (fun p => (p.1, ⟨p.1, p.2.accounts⟩))
      ∧ loaded.map (fun p => (p.1, p.2.accounts))
          = ([("svc", ⟨"svc", [Account.make "u" "p" "n" ["a", "b"] "T0"]⟩),
              ("s2", ⟨"s2", [Account.make "v" "q" "" [] "T1"]⟩)]
                : List (String × ServiceData)).map
              (fun p => (p.1, p.2.accounts)) :=
  claim_C2_save_load_round_trip "T2"
    ⟨[("svc", ⟨"svc", [Account.make "u" "p" "n" ["a", "b"] "T0"]⟩),
      ("s2", ⟨"s2", [Account.make "v" "q" "" [] "T1"]⟩)], .absent, 0⟩
    (by decide) (by decide)

/-! Lemmas for the import claims (C1, C7). -/

theorem toAccount_username (now : String) (r : CsvRow) :
    (r.toAccount now).username = r.username := rfl

theorem toAccount_password (now : String) (r : CsvRow) :
    (r.toAccount now).password = r.password := rfl

theorem toAccount_notes (now : String) (r : CsvRow) :
    (r.toAccount now).notes = r.notes := rfl

theorem toAccount_tags (now : String) (r : CsvRow) :
    (r.toAccount now).tags = normalise_tags (pySplitComma r.tags) := rfl

theorem toAccount_last_updated (now : String) (r : CsvRow) :
    (r.toAccount now).last_updated = r.last_updated := rfl

theorem importStep_dup (now : String) (st : ImportState) (r : CsvRow)
    (index : Nat) (old : Account)
    (hseen : dictLookup st.seen r.username = some index)
    (hidx : st.accounts[index]? = some old) :
    importStep now st r =
      ⟨st.accounts.set index
        ⟨old.username, r.password, r.notes,
         normalise_tags ((r.toAccount now).tags), now⟩,
       st.seen, st.added, st.updated + 1⟩ := by
  unfold importStep
  simp only [toAccount_username, hseen, hidx]
  rfl

theorem importStep_fresh (now : String) (st : ImportState) (r : CsvRow)
    (hseen : dictLookup st.seen r.username = none) :
    importStep now st r =
      ⟨st.accounts ++ [r.toAccount now],
       dictInsert st.seen r.username st.accounts.length,
       st.added + 1, st.updated⟩ := by
  unfold importStep
  simp only [toAccount_username, hseen]

theorem dictLookup_setAccounts_self (svcs : List (String × ServiceData))
    (name : String) (accs : List Account) {svc : ServiceData}
    (h : dictLookup svcs name = some svc) :
    dictLookup (setAccounts svcs name accs) name = some ⟨svc.name, accs⟩ := by
  induction svcs with
  | nil => simp [dictLookup] at h
  | cons p rest ih =>
      obtain ⟨k, w⟩ := p
      by_cases hk : k = name
      · subst hk
        simp only [dictLookup, if_pos rfl] at h
        have hsvc : w = svc := by injection h
        subst hsvc
        unfold setAccounts
        simp only [List.map_cons]
        simp [dictLookup]
      · simp only [dictLookup, if_neg hk] at h
        simp only [setAccounts, List.map_cons]
        rw [if_neg hk]
        simp only [dictLookup, if_neg hk]
        exact ih h

theorem import_accountsOf (now : String) (s : DataStore) (name : String)
    (rows : List CsvRow) :
    (DataStore.import_service_from_csv now s name rows).2.accountsOf name
      = (rows.foldl (importStep now)
          ⟨s.accountsOf name, seenOf (s.accountsOf name), 0, 0⟩).accounts := by
  simp only [DataStore.import_service_from_csv, ensure_accountsOf, DataStore.save]
  unfold DataStore.accountsOf
  rw [dictLookup_setAccounts_self _ _ _
    (show dictLookup (s.ensure name).services name = some _ from ensure_lookup s name)]

/-- Claim C1: the CSV import builds the username lookup from the
existing accounts before the rows are processed and folds the rows
through the merge step; a row whose username is in the lookup replaces
that account's password, notes and tags (re-normalised), refreshes
`last_updated` to the import time, leaves the username and the position
unchanged, and counts as updated; any other row is appended, counted as
added, and registered in the lookup at the appended position (so later
duplicate rows of the same import update it); the store is persisted
exactly once, after the whole batch; and the returned pair is
`(added, updated)`. -/
theorem claim_C1_import_merge (now : String) (s : DataStore) (name : String)
    (rows : List CsvRow) :
    ((DataStore.import_service_from_csv now s name rows).2.writes = s.writes + 1
      ∧ (DataStore.import_service_from_csv now s name rows).2.file
          = .parsed (serialiseServices
              (DataStore.import_service_from_csv now s name rows).2.services)
      ∧ (DataStore.import_service_from_csv now s name rows).1
          = ((rows.foldl (importStep now)
              ⟨s.accountsOf name, seenOf (s.accountsOf name), 0, 0⟩).added,
             (rows.foldl (importStep now)
              ⟨s.accountsOf name, seenOf (s.accountsOf name), 0, 0⟩).updated)
      ∧ (DataStore.import_service_from_csv now s name rows).2.accountsOf name
          = (rows.foldl (importStep now)
              ⟨s.accountsOf name, seenOf (s.accountsOf name), 0, 0⟩).accounts)
    ∧ (∀ (st : ImportState) (r : CsvRow) (index : Nat) (old : Account),
        dictLookup st.seen r.username = some index →
        st.accounts[index]? = some old →
        importStep now st r =
          ⟨st.accounts.set index
            ⟨old.username, r.password, r.notes,
             normalise_tags ((r.toAccount now).tags), now⟩,
           st.seen, st.added, st.updated + 1⟩)
    ∧ (∀ (st : ImportState) (r : CsvRow),
        dictLookup st.seen r.username = none →
        importStep now st r =
          ⟨st.accounts ++ [r.toAccount now],
           dictInsert st.seen r.username st.accounts.length,
           st.added + 1, st.updated⟩) := by
  refine ⟨⟨?_, ?_, ?_, ?_⟩, importStep_dup now, importStep_fresh now⟩
  · simp [DataStore.import_service_from_csv, DataStore.save, ensure_writes]
  · simp [DataStore.import_service_from_csv, DataStore.save]
  · simp [DataStore.import_service_from_csv, ensure_accountsOf]
  · exact import_accountsOf now s name rows

/-- Witness for claim C1: a one-row import into an empty store writes
the file once; a duplicate row replaces password, notes, tags and
timestamp in place; a fresh row is appended and registered. -/
theorem claim_C1_witness :
    (DataStore.import_service_from_csv "T" ⟨[], .absent, 0⟩ "svc"
        [⟨"u", "p", "", "", "T0"⟩]).2.writes = 0 + 1
    ∧ importStep "T"
        ⟨[⟨"u", "p", "", [], "T0"⟩], [("u", 0)], 0, 0⟩ ⟨"u", "p2", "n2", "x", "T1"⟩
        = ⟨[⟨"u", "p2", "n2", ["x"], "T"⟩], [("u", 0)], 0, 1⟩
    ∧ importStep "T" ⟨[], [], 0, 0⟩ ⟨"v", "q", "", "", "T2"⟩
        = ⟨[⟨"v", "q", "", [], "T2"⟩], [("v", 0)], 1, 0⟩ := by
  have h := claim_C1_import_merge "T" ⟨[], .absent, 0⟩ "svc" [⟨"u", "p", "", "", "T0"⟩]
  refine ⟨h.1.1, ?_, ?_⟩
  · have h₂ := h.2.1 ⟨[⟨"u", "p", "", [], "T0"⟩], [("u", 0)], 0, 0⟩
      ⟨"u", "p2", "n2", "x", "T1"⟩ 0 ⟨"u", "p", "", [], "T0"⟩ rfl rfl
    rw [h₂]
    decide
  · have h₃ := h.2.2 ⟨[], [], 0, 0⟩ ⟨"v", "q", "", "", "T2"⟩ rfl
    rw [h₃]
    decide

/-! Lemmas on the username lookup (`seenOf`) built by the import. -/

theorem dictLookup_dictInsert_isSome {α : Type} (m : List (String × α)) (k u : String)
    (v : α) : (dictLookup (dictInsert m k v) u).isSome
      ↔ (dictLookup m u).isSome ∨ u = k := by
  by_cases h : u = k
  · subst h
    rw [dictLookup_dictInsert_self]
    simp
  · rw [dictLookup_dictInsert_ne _ _ h]
    simp [h]

theorem List_set_of_getElem? {α : Type} :
    ∀ (l : List α) (i : Nat) (a : α), l[i]? = some a → l.set i a = l := by
  intro l
  induction l with
  | nil => intro i a h; simp at h
  | cons b rest ih =>
      intro i a h
      cases i with
      | zero =>
          simp only [List.getElem?_cons_zero] at h
          cases h
          rfl
      | succ i =>
          simp only [List.getElem?_cons_succ] at h
          simp [List.set_cons_succ, ih i a h]

theorem seenGo_lookup (us : List String) :
    ∀ (m : List (String × Nat)) (i : Nat) (u : String) (j : Nat),
      dictLookup (seenGo m i us) u = some j →
      dictLookup m u = some j ∨ ∃ k, k < us.length ∧ us[k]? = some u ∧ j = i + k := by
  induction us with
  | nil => intro m i u j h; exact Or.inl h
  | cons u₀ rest ih =>
      intro m i u j h
      rcases ih (dictInsert m u₀ i) (i + 1) u j h with h₁ | ⟨k, hk, hu, hj⟩
      · by_cases hu₀ : u = u₀
        · subst hu₀
          rw [dictLookup_dictInsert_self] at h₁
          cases h₁
          exact Or.inr ⟨0, by simp, by simp, by omega⟩
        · rw [dictLookup_dictInsert_ne _ _ hu₀] at h₁
          exact Or.inl h₁
      · exact Or.inr ⟨k + 1, by simpa using hk, by simpa using hu, by omega⟩

theorem seenGo_isSome (us : List String) :
    ∀ (m : List (String × Nat)) (i : Nat) (u : String),
      (dictLookup (seenGo m i us) u).isSome
        ↔ (dictLookup m u).isSome ∨ u ∈ us := by
  induction us with
  | nil => intro m i u; simp [seenGo]
  | cons u₀ rest ih =>
      intro m i u
      show (dictLookup (seenGo (dictInsert m u₀ i) (i + 1) rest) u).isSome ↔ _
      rw [ih (dictInsert m u₀ i) (i + 1) u]
      rw [dictLookup_dictInsert_isSome]
      constructor
      · rintro ((h | h) | h)
        · exact Or.inl h
        · exact Or.inr (by simp [h])
        · exact Or.inr (by simp [h])
      · rintro (h | h)
        · exact Or.inl (Or.inl h)
        · rcases List.mem_cons.mp h with h | h
          · exact Or.inl (Or.inr h)
          · exact Or.inr h

theorem seenGo_append (u : String) :
    ∀ (us : List String) (m : List (String × Nat)) (i : Nat),
      seenGo m i (us ++ [u]) = dictInsert (seenGo m i us) u (i + us.length) := by
  intro us
  induction us with
  | nil => intro m i; simp [seenGo]
  | cons u₀ rest ih =>
      intro m i
      show seenGo (dictInsert m u₀ i) (i + 1) (rest ++ [u]) = _
      rw [ih (dictInsert m u₀ i) (i + 1)]
      show _ = dictInsert (seenGo (dictInsert m u₀ i) (i + 1) rest) u (i + (rest.length + 1))
      have : i + 1 + rest.length = i + (rest.length + 1) := by omega
      rw [this]

theorem seenOf_append (A : List Account) (x : Account) :
    seenOf (A ++ [x]) = dictInsert (seenOf A) x.username A.length := by
  unfold seenOf
  rw [List.map_append, List.map_singleton, seenGo_append]
  simp

theorem seenOf_set (A : List Account) (idx : Nat) (x old : Account)
    (h : A[idx]? = some old) (hu : x.username = old.username) :
    seenOf (A.set idx x) = seenOf A := by
  unfold seenOf
  rw [List.map_set, hu]
  congr 1
  apply List_set_of_getElem?
  rw [List.getElem?_map, h]
  rfl
theorem seenOf_lookup_some {A : List Account} {u : String} {j : Nat}
    (h : dictLookup (seenOf A) u = some j) :
    j < A.length ∧ ∃ a, A[j]? = some a ∧ a.username = u := by
  have h' : dictLookup (seenGo [] 0 (A.map (fun a => a.username))) u = some j := h
  rcases seenGo_lookup (A.map (fun a => a.username)) [] 0 u j h' with h₁ | ⟨k, hk, hu, hj⟩
  · simp [dictLookup] at h₁
  · have hjk : j = k := by omega
    subst hjk
    rw [List.length_map] at hk
    refine ⟨hk, ?_⟩
    rw [List.getElem?_map] at hu
    cases ha : A[j]? with
    | none =>
        rw [ha] at hu
        simp at hu
    | some a =>
        rw [ha] at hu
        simp at hu
        exact ⟨a, rfl, hu⟩

theorem seenOf_isSome_iff {A : List Account} {u : String} :
    (dictLookup (seenOf A) u).isSome ↔ u ∈ A.map (fun a => a.username) := by
  show (dictLookup (seenGo [] 0 (A.map (fun a => a.username))) u).isSome ↔ _
  rw [seenGo_isSome]
  simp [dictLookup]


/-! Behaviour of a single import step and of the whole row fold. -/

theorem importStep_inner_none (now : String) (st : ImportState) (r : CsvRow)
    (index : Nat) (hseen : dictLookup st.seen r.username = some index)
    (hacc : st.accounts[index]? = none) : importStep now st r = st := by
  unfold importStep
  simp only [toAccount_username, hseen, hacc]

theorem importStep_seen_persist (now : String) (st : ImportState) (r : CsvRow)
    {u : String} {v : Nat} (h : dictLookup st.seen u = some v) :
    dictLookup (importStep now st r).seen u = some v := by
  cases hl : dictLookup st.seen r.username with
  | some idx =>
      cases hacc : st.accounts[idx]? with
      | some old => rw [importStep_dup now st r idx old hl hacc]; exact h
      | none => rw [importStep_inner_none now st r idx hl hacc]; exact h
  | none =>
      rw [importStep_fresh now st r hl]
      have hne : u ≠ r.username := by
        intro hh
        rw [hh, hl] at h
        cases h
      show dictLookup (dictInsert st.seen r.username st.accounts.length) u = some v
      rw [dictLookup_dictInsert_ne _ _ hne]
      exact h

theorem run_seen_persist (now : String) :
    ∀ (rows : List CsvRow) (st : ImportState) {u : String} {v : Nat},
      dictLookup st.seen u = some v →
      dictLookup ((rows.foldl (importStep now) st)).seen u = some v := by
  intro rows
  induction rows with
  | nil => intro st u v h; exact h
  | cons r rest ih =>
      intro st u v h
      exact ih (importStep now st r) (importStep_seen_persist now st r h)

theorem importStep_seenOf (now : String) (st : ImportState) (r : CsvRow)
    (h : st.seen = seenOf st.accounts) :
    (importStep now st r).seen = seenOf (importStep now st r).accounts := by
  cases hl : dictLookup st.seen r.username with
  | some idx =>
      cases hacc : st.accounts[idx]? with
      | some old =>
          rw [importStep_dup now st r idx old hl hacc]
          rw [seenOf_set st.accounts idx
            ⟨old.username, r.password, r.notes,
             normalise_tags ((r.toAccount now).tags), now⟩ old hacc rfl]
          exact h
      | none => rw [importStep_inner_none now st r idx hl hacc]; exact h
  | none =>
      rw [importStep_fresh now st r hl]
      show dictInsert st.seen r.username st.accounts.length
        = seenOf (st.accounts ++ [r.toAccount now])
      rw [seenOf_append, toAccount_username, h]

theorem run_seenOf (now : String) :
    ∀ (rows : List CsvRow) (st : ImportState),
      st.seen = seenOf st.accounts →
      ((rows.foldl (importStep now) st)).seen
        = seenOf ((rows.foldl (importStep now) st)).accounts := by
  intro rows
  induction rows with
  | nil => intro st h; exact h
  | cons r rest ih =>
      intro st h
      exact ih (importStep now st r) (importStep_seenOf now st r h)

theorem run_registered (now : String) :
    ∀ (rows : List CsvRow) (st : ImportState) (r : CsvRow), r ∈ rows →
      ∃ j, dictLookup ((rows.foldl (importStep now) st)).seen r.username = some j := by
  intro rows
  induction rows with
  | nil => intro st r h; simp at h
  | cons r₀ rest ih =>
      intro st r h
      rcases List.mem_cons.mp h with h | h
      · subst h
        cases hl : dictLookup st.seen r.username with
        | some idx =>
            cases hacc : st.accounts[idx]? with
            | some old =>
                refine ⟨idx, run_seen_persist now rest _ ?_⟩
                rw [importStep_dup now st r idx old hl hacc]
                exact hl
            | none =>
                refine ⟨idx, run_seen_persist now rest _ ?_⟩
                rw [importStep_inner_none now st r idx hl hacc]
                exact hl
        | none =>
            refine ⟨st.accounts.length, run_seen_persist now rest _ ?_⟩
            rw [importStep_fresh now st r hl]
            show dictLookup (dictInsert st.seen r.username st.accounts.length)
              r.username = some st.accounts.length
            exact dictLookup_dictInsert_self _ _ _
      · exact ih (importStep now st r₀) r h

/-- Re-importing rows over the outcome of a previous import of the same
rows performs only in-place updates: starting from a state `st2` whose
accounts agree with the first run's final accounts up to `last_updated`
(and whose lookup is the one rebuilt from those accounts), the second
fold keeps the length, the lookup, and the accounts up to `last_updated`,
adds nothing, and updates once per row. -/
theorem import_run_sim (now1 now2 : String) :
    ∀ (rows : List CsvRow) (st1 st2 : ImportState),
      st1.seen = seenOf st1.accounts →
      st2.seen = seenOf ((rows.foldl (importStep now1) st1)).accounts →
      st2.accounts.length = ((rows.foldl (importStep now1) st1)).accounts.length →
      (∀ i : Nat, i < ((rows.foldl (importStep now1) st1)).accounts.length →
        (i < st1.accounts.length
          ∧ st2.accounts[i]?.map Account.eraseTime
              = st1.accounts[i]?.map Account.eraseTime)
        ∨ st2.accounts[i]? = ((rows.foldl (importStep now1) st1)).accounts[i]?) →
      ((rows.foldl (importStep now2) st2)).accounts.length
          = ((rows.foldl (importStep now1) st1)).accounts.length
      ∧ (∀ i : Nat, ((rows.foldl (importStep now2) st2)).accounts[i]?.map Account.eraseTime
            = ((rows.foldl (importStep now1) st1)).accounts[i]?.map Account.eraseTime)
      ∧ ((rows.foldl (importStep now2) st2)).seen = st2.seen
      ∧ ((rows.foldl (importStep now2) st2)).added = st2.added
      ∧ ((rows.foldl (importStep now2) st2)).updated = st2.updated + rows.length := by
  intro rows
  induction rows with
  | nil =>
      intro st1 st2 h1 h2 hlen hinv
      simp only [List.foldl_nil] at h2 hlen hinv
      refine ⟨hlen, ?_, rfl, rfl, by simp⟩
      intro i
      simp only [List.foldl_nil]
      by_cases hi : i < st1.accounts.length
      · rcases hinv i hi with ⟨-, hmap⟩ | heq
        · exact hmap
        · rw [heq]
      · have h₂ : st2.accounts[i]? = none := List.getElem?_eq_none (by omega)
        have h₁ : st1.accounts[i]? = none := List.getElem?_eq_none (by omega)
        rw [h₁, h₂]
  | cons r rest ih =>
      intro st1 st2 h1 h2 hlen hinv
      simp only [List.foldl_cons] at h2 hlen hinv ⊢
      have hseenF := run_seenOf now1 rest (importStep now1 st1 r)
        (importStep_seenOf now1 st1 r h1)
      obtain ⟨i₀, hi₀⟩ := run_registered now1 (r :: rest) st1 r (by simp)
      simp only [List.foldl_cons] at hi₀
      rw [hseenF] at hi₀
      obtain ⟨hAFlt, aF, hAF, hAFu⟩ := seenOf_lookup_some hi₀
      have hlookup2 : dictLookup st2.seen r.username = some i₀ := by
        rw [h2]
        exact hi₀
      have hi₀st2 : i₀ < st2.accounts.length := by omega
      obtain ⟨b, hbm⟩ : ∃ b, st2.accounts[i₀]? = some b := by
        cases hx : st2.accounts[i₀]? with
        | none =>
            rw [List.getElem?_eq_none_iff] at hx
            omega
        | some b => exact ⟨b, rfl⟩
      have step2 := importStep_dup now2 st2 r i₀ b hlookup2 hbm
      cases hl1 : dictLookup st1.seen r.username with
      | some j =>
          obtain ⟨hjlt, old, hold, holdu⟩ := seenOf_lookup_some (h1 ▸ hl1)
          have step1 := importStep_dup now1 st1 r j old hl1 hold
          have hpersist : dictLookup
              (rest.foldl (importStep now1) (importStep now1 st1 r)).seen r.username
              = some j := by
            refine run_seen_persist now1 rest _ ?_
            rw [step1]
            exact hl1
          rw [hseenF, hi₀] at hpersist
          have hji : j = i₀ := by injection hpersist.symm
          subst hji
          have hbu : b.username = r.username := by
            rcases hinv j hAFlt with ⟨hlt, hmap⟩ | heq
            · rw [hbm, hold] at hmap
              have := congrArg (fun o => (Option.map Account.username o)) hmap
              simp [Account.eraseTime] at this
              rw [this, holdu]
            · rw [hbm, hAF] at heq
              have hba : b = aF := by injection heq
              rw [hba, hAFu]
          have h1' := importStep_seenOf now1 st1 r h1
          have h2' : (importStep now2 st2 r).seen
              = seenOf ((rest.foldl (importStep now1) (importStep now1 st1 r))).accounts := by
            rw [step2]
            exact h2
          have hlen' : (importStep now2 st2 r).accounts.length
              = ((rest.foldl (importStep now1) (importStep now1 st1 r))).accounts.length := by
            rw [step2]
            show (st2.accounts.set j _).length = _
            rw [List.length_set]
            exact hlen
          have hinv' : ∀ i : Nat,
              i < ((rest.foldl (importStep now1) (importStep now1 st1 r))).accounts.length →
              (i < (importStep now1 st1 r).accounts.length
                ∧ (importStep now2 st2 r).accounts[i]?.map Account.eraseTime
                    = (importStep now1 st1 r).accounts[i]?.map Account.eraseTime)
              ∨ (importStep now2 st2 r).accounts[i]?
                  = ((rest.foldl (importStep now1) (importStep now1 st1 r))).accounts[i]? := by
            intro i hi
            rw [step1, step2]
            by_cases hii : i = j
            · subst hii
              left
              constructor
              · show i < (st1.accounts.set i _).length
                rw [List.length_set]
                exact hjlt
              · show (st2.accounts.set i _)[i]?.map _ = (st1.accounts.set i _)[i]?.map _
                rw [List.getElem?_set_eq_of_lt _ hi₀st2, List.getElem?_set_eq_of_lt _ hjlt]
                simp only [Option.map]
                congr 1
                simp [Account.eraseTime, hbu, holdu, toAccount_tags]
            · have hne : j ≠ i := fun hh => hii hh.symm
              rcases hinv i hi with ⟨hlt, hmap⟩ | heq
              · left
                constructor
                · show i < (st1.accounts.set j _).length
                  rw [List.length_set]
                  exact hlt
                · show (st2.accounts.set j _)[i]?.map _ = (st1.accounts.set j _)[i]?.map _
                  rw [List.getElem?_set_ne hne, List.getElem?_set_ne hne]
                  exact hmap
              · right
                show (st2.accounts.set j _)[i]? = _
                rw [List.getElem?_set_ne hne]
                rw [step1] at heq
                exact heq
          obtain ⟨hL, hE, hS, hA, hU⟩ :=
            ih (importStep now1 st1 r) (importStep now2 st2 r) h1' h2' hlen' hinv'
          refine ⟨hL, hE, ?_, ?_, ?_⟩
          · rw [hS, step2]
          · rw [hA, step2]
          · rw [hU, step2]
            show st2.updated + 1 + rest.length = st2.updated + (r :: rest).length
            simp [List.length_cons]
            omega
      | none =>
          have step1 := importStep_fresh now1 st1 r hl1
          have hreg1 : dictLookup (importStep now1 st1 r).seen r.username
              = some st1.accounts.length := by
            rw [step1]
            exact dictLookup_dictInsert_self _ _ _
          have hpersist := run_seen_persist now1 rest _ hreg1
          rw [hseenF, hi₀] at hpersist
          have hi₀len : i₀ = st1.accounts.length := Option.some.inj hpersist
          have hbeq : b = aF := by
            rcases hinv i₀ hAFlt with ⟨hlt, -⟩ | heq
            · omega
            · rw [hbm, hAF] at heq
              injection heq
          have hbu : b.username = r.username := by rw [hbeq, hAFu]
          have h1' := importStep_seenOf now1 st1 r h1
          have h2' : (importStep now2 st2 r).seen
              = seenOf ((rest.foldl (importStep now1) (importStep now1 st1 r))).accounts := by
            rw [step2]
            exact h2
          have hlen' : (importStep now2 st2 r).accounts.length
              = ((rest.foldl (importStep now1) (importStep now1 st1 r))).accounts.length := by
            rw [step2]
            show (st2.accounts.set i₀ _).length = _
            rw [List.length_set]
            exact hlen
          have hinv' : ∀ i : Nat,
              i < ((rest.foldl (importStep now1) (importStep now1 st1 r))).accounts.length →
              (i < (importStep now1 st1 r).accounts.length
                ∧ (importStep now2 st2 r).accounts[i]?.map Account.eraseTime
                    = (importStep now1 st1 r).accounts[i]?.map Account.eraseTime)
              ∨ (importStep now2 st2 r).accounts[i]?
                  = ((rest.foldl (importStep now1) (importStep now1 st1 r))).accounts[i]? := by
            intro i hi
            rw [step1, step2]
            by_cases hii : i = i₀
            · subst hii
              left
              constructor
              · show i < (st1.accounts ++ [r.toAccount now1]).length
                simp only [List.length_append, List.length_cons, List.length_nil]
                omega
              · show (st2.accounts.set i _)[i]?.map _
                  = (st1.accounts ++ [r.toAccount now1])[i]?.map _
                rw [List.getElem?_set_eq_of_lt _ hi₀st2]
                have happ : (st1.accounts ++ [r.toAccount now1])[i]?
                    = some (r.toAccount now1) := by
                  rw [hi₀len, List.getElem?_append]
                  simp
                rw [happ]
                simp only [Option.map]
                congr 1
                simp [Account.eraseTime, hbu, toAccount_tags, normalise_tags_idem,
                  toAccount_username, toAccount_password, toAccount_notes]
            · have hne : i₀ ≠ i := fun hh => hii hh.symm
              rcases hinv i hi with ⟨hlt, hmap⟩ | heq
              · left
                constructor
                · show i < (st1.accounts ++ [r.toAccount now1]).length
                  simp only [List.length_append, List.length_cons, List.length_nil]
                  omega
                · show (st2.accounts.set i₀ _)[i]?.map _
                    = (st1.accounts ++ [r.toAccount now1])[i]?.map _
                  rw [List.getElem?_set_ne hne]
                  have happ : (st1.accounts ++ [r.toAccount now1])[i]?
                      = st1.accounts[i]? := by
                    rw [List.getElem?_append]
                    rw [if_pos hlt]
                  rw [happ]
                  exact hmap
              · right
                show (st2.accounts.set i₀ _)[i]? = _
                rw [List.getElem?_set_ne hne]
                rw [step1] at heq
                exact heq
          obtain ⟨hL, hE, hS, hA, hU⟩ :=
            ih (importStep now1 st1 r) (importStep now2 st2 r) h1' h2' hlen' hinv'
          refine ⟨hL, hE, ?_, ?_, ?_⟩
          · rw [hS, step2]
          · rw [hA, step2]
          · rw [hU, step2]
            show st2.updated + 1 + rest.length = st2.updated + (r :: rest).length
            simp [List.length_cons]
            omega

theorem import_counts (now : String) (s : DataStore) (name : String)
    (rows : List CsvRow) :
    (DataStore.import_service_from_csv now s name rows).1
      = ((rows.foldl (importStep now)
            ⟨s.accountsOf name, seenOf (s.accountsOf name), 0, 0⟩).added,
         (rows.foldl (importStep now)
            ⟨s.accountsOf name, seenOf (s.accountsOf name), 0, 0⟩).updated) := by
  simp [DataStore.import_service_from_csv, ensure_accountsOf]

/-- Counterexample to claim C7 as stated: importing the same one-row
file twice does not reproduce the same contents, because the second
pass refreshes `last_updated` on the updated row (the first import
kept the row's own timestamp). -/
theorem claim_C7_counterexample :
    ((DataStore.import_service_from_csv "2021-01-02 00:00:00"
        (DataStore.import_service_from_csv "2021-01-01 00:00:00"
          ⟨[], .absent, 0⟩ "svc" [⟨"u", "p", "", "", "2020-01-01 00:00:00"⟩]).2
        "svc" [⟨"u", "p", "", "", "2020-01-01 00:00:00"⟩]).2.accountsOf "svc")
      ≠ ((DataStore.import_service_from_csv "2021-01-01 00:00:00"
          ⟨[], .absent, 0⟩ "svc" [⟨"u", "p", "", "", "2020-01-01 00:00:00"⟩]).2.accountsOf
            "svc") := by
  decide

/-- Claim C7 as amended: importing the same rows twice into the same
service yields the same final account count, the same accounts field
for field except `last_updated` (which the second import refreshes to
its own import time on every row), and the second import reports
`added = 0` and `updated = N` for `N` rows. -/
theorem claim_C7_import_idempotent_amended (now1 now2 : String) (s : DataStore)
    (name : String) (rows : List CsvRow) :
    (DataStore.import_service_from_csv now2
        (DataStore.import_service_from_csv now1 s name rows).2 name rows).1
      = (0, rows.length)
    ∧ ((DataStore.import_service_from_csv now2
          (DataStore.import_service_from_csv now1 s name rows).2 name
          rows).2.accountsOf name).length
        = ((DataStore.import_service_from_csv now1 s name rows).2.accountsOf name).length
    ∧ ((DataStore.import_service_from_csv now2
          (DataStore.import_service_from_csv now1 s name rows).2 name
          rows).2.accountsOf name).map Account.eraseTime
        = ((DataStore.import_service_from_csv now1 s name
            rows).2.accountsOf name).map Account.eraseTime := by
  rw [import_counts now2, import_accountsOf now2, import_accountsOf now1]
  obtain ⟨hL, hE, hS, hA, hU⟩ := import_run_sim now1 now2 rows
    ⟨s.accountsOf name, seenOf (s.accountsOf name), 0, 0⟩
    ⟨(rows.foldl (importStep now1)
        ⟨s.accountsOf name, seenOf (s.accountsOf name), 0, 0⟩).accounts,
      seenOf (rows.foldl (importStep now1)
        ⟨s.accountsOf name, seenOf (s.accountsOf name), 0, 0⟩).accounts, 0, 0⟩
    rfl rfl rfl (fun i hi => Or.inr rfl)
  refine ⟨?_, hL, ?_⟩
  · rw [hA, hU]
    simp
  · apply List.ext_getElem?
    intro i
    rw [List.getElem?_map, List.getElem?_map]
    exact hE i
